import Mathlib

/-!
Shallow embedding of the resilience and streaming-delivery engine of the
GST-Genie repository (`src/services/gemini_service.py`,
`src/services/rate_limiter.py`, `src/api/endpoints/chat.py`).

Python strings are modelled as `List Char`, wall-clock timestamps as `ℤ`
(seconds), and fallible operations as `Except String`-valued functions.
-/

namespace GstGenie

/-! ### Circuit breaker (`gemini_service.py`, class `CircuitBreaker`) -/

/-- The three values taken by `CircuitBreaker.state` in the source. -/
inductive CBState
  | CLOSED
  | OPEN
  | HALF_OPEN
deriving DecidableEq

/-- State of `CircuitBreaker` (`gemini_service.py` lines 15-23): the two
configuration fields and the three mutable fields set in `__init__`. -/
structure CircuitBreaker where
  failure_threshold : ℕ
  recovery_timeout : ℤ
  failure_count : ℕ
  last_failure_time : Option ℤ
  state : CBState
deriving DecidableEq

/-- Python `CircuitBreaker.__init__`: counter 0, no failure time, state CLOSED. -/
def CircuitBreaker.init (T : ℕ) (R : ℤ) : CircuitBreaker :=
  { failure_threshold := T, recovery_timeout := R, failure_count := 0,
    last_failure_time := none, state := .CLOSED }

/-- Python `CircuitBreaker.on_success` (lines 43-45). -/
def CircuitBreaker.on_success (cb : CircuitBreaker) : CircuitBreaker :=
  { cb with failure_count := 0, state := .CLOSED }

/-- Python `CircuitBreaker.on_failure` (lines 47-52), `now` being
`datetime.now().timestamp()` at the moment of the failure. -/
def CircuitBreaker.on_failure (cb : CircuitBreaker) (now : ℤ) : CircuitBreaker :=
  let cb1 := { cb with failure_count := cb.failure_count + 1,
                       last_failure_time := some now }
  if cb1.failure_count ≥ cb1.failure_threshold then { cb1 with state := .OPEN } else cb1

/-- The guard at the top of `CircuitBreaker.call` (lines 27-33): in state
OPEN, if `last_failure_time` is set (truthy) and more than `recovery_timeout`
has elapsed, move to HALF_OPEN and let the call proceed; otherwise raise
"Service temporarily unavailable (circuit breaker OPEN)" (`none`). In the
other states the call proceeds with the breaker unchanged. -/
def CircuitBreaker.gate (cb : CircuitBreaker) (now : ℤ) : Option CircuitBreaker :=
  match cb.state with
  | .OPEN =>
    match cb.last_failure_time with
    | some t =>
      if now - t > cb.recovery_timeout then some { cb with state := .HALF_OPEN } else none
    | none => none
  | _ => some cb

/-- Result of one `CircuitBreaker.call`: either the call was rejected by the
open breaker (the wrapped function was NOT invoked and the given error is
raised), or the wrapped function was invoked and finished with outcome `ok`
(`ok = false` meaning it raised, which `call` re-raises after `on_failure`). -/
inductive CallResult
  | rejected (msg : List Char) (cb : CircuitBreaker)
  | completed (cb : CircuitBreaker) (ok : Bool)
deriving DecidableEq

/-- The message of the exception raised by the open breaker. -/
def circuitOpenMsg : List Char :=
  ("Service temporarily unavailable (circuit breaker OPEN)").toList

/-- Python `CircuitBreaker.call` (lines 25-41) at time `now`, where `ok` is the
outcome of the wrapped awaited function: gate first, then run the function
and apply `on_success` / `on_failure`. -/
def CircuitBreaker.call (cb : CircuitBreaker) (now : ℤ) (ok : Bool) : CallResult :=
  match cb.gate now with
  | none => .rejected circuitOpenMsg cb
  | some cb1 => if ok then .completed cb1.on_success true else .completed (cb1.on_failure now) false

/-- The breaker state after a `call`. -/
def afterCall : CallResult → CircuitBreaker
  | .rejected _ cb => cb
  | .completed cb _ => cb

/-- Whether the wrapped function was invoked during the `call`. -/
def invoked : CallResult → Bool
  | .rejected _ _ => false
  | .completed _ _ => true

/-- States of the breaker reachable from a fresh instance by any sequence of
`call` invocations (arbitrary times and outcomes). -/
inductive Reachable (T : ℕ) (R : ℤ) : CircuitBreaker → Prop
  | init : Reachable T R (CircuitBreaker.init T R)
  | step (cb : CircuitBreaker) (now : ℤ) (ok : Bool) :
      Reachable T R cb → Reachable T R (afterCall (cb.call now ok))

/-- A run of consecutive failing calls at the given times. -/
def failRun (cb : CircuitBreaker) (ts : List ℤ) : CircuitBreaker :=
  ts.foldl (fun c t => afterCall (c.call t false)) cb

/-- The breaker obtained from a fresh instance (threshold `T`, timeout `R`)
after consecutive failing calls at times `ts`. -/
def breakerAfterFailures (T : ℕ) (R : ℤ) (ts : List ℤ) : CircuitBreaker :=
  failRun (CircuitBreaker.init T R) ts

/-! ### Sliding-window rate limiter (`rate_limiter.py`, `RateLimiter.is_rate_limited`)

The Redis sorted set behind a `rate_limit:{endpoint}:{user_id}` key is
modelled as the list of scores (timestamps) of its members; `zadd` with a
fresh `uuid4` member always inserts a new element, so the list may contain
repeated timestamps.  The ghost field `admitted` records the timestamp of
every admitted call, including entries later pruned from the store. -/

/-- Store state for one `(user_id, endpoint)` key, plus the ghost trace of
admitted calls. -/
structure RLState where
  store : List ℤ
  admitted : List ℤ
deriving DecidableEq

/-- Redis `ZREMRANGEBYSCORE key lo hi`: drop every member whose score lies in the
closed interval `[lo, hi]`. -/
def zremrange (store : List ℤ) (lo hi : ℤ) : List ℤ :=
  store.filter (fun x => !(decide (lo ≤ x) && decide (x ≤ hi)))

/-- The info dict returned by `is_rate_limited`: the denied shape (with
`retry_after`), the allowed shape, and the fail-open shape carrying only the
stringified store error. -/
inductive RLInfo
  | denied (requests_made : ℕ) (max_requests : ℕ) (window_seconds : ℤ) (retry_after : ℤ)
  | allowed (requests_made : ℕ) (max_requests : ℕ) (window_seconds : ℤ)
  | failOpen (error : List Char)
deriving DecidableEq

/-- Python `RateLimiter.is_rate_limited` (lines 16-55), state-level view for one
key, with the store healthy: prune scores in `[0, now - window_seconds]`,
count, deny (recording nothing) if the count reaches `max_requests`, else
`zadd` a fresh member at score `now`. -/
def is_rate_limited (st : RLState) (max_requests : ℕ) (window_seconds : ℤ) (now : ℤ) :
    Bool × RLInfo × RLState :=
  let window_start := now - window_seconds
  let store1 := zremrange st.store 0 window_start
  let current_requests := store1.length
  if current_requests ≥ max_requests then
    (true, .denied current_requests max_requests window_seconds window_seconds,
     { store := store1, admitted := st.admitted })
  else
    (false, .allowed (current_requests + 1) max_requests window_seconds,
     { store := store1 ++ [now], admitted := st.admitted ++ [now] })

/-- A sequence of `is_rate_limited` calls for one key at the given times,
starting from an empty store. -/
def rlRun (max_requests : ℕ) (window_seconds : ℤ) (ts : List ℤ) : RLState :=
  ts.foldl (fun st t => (is_rate_limited st max_requests window_seconds t).2.2)
    { store := [], admitted := [] }

/-- Inductive invariant of the limiter state after calls up to time `tl`:
every admitted timestamp still inside the window anchored at `tl` survives in
the store, any trailing window of length `window_seconds` holds at most
`max_requests` admitted timestamps, and all admitted timestamps are `≤ tl`. -/
abbrev RLInv (max_requests : ℕ) (window_seconds : ℤ) (st : RLState) (tl : ℤ) : Prop :=
  List.Sublist (st.admitted.filter (fun a => decide (tl - window_seconds < a))) st.store ∧
  (∀ t : ℤ,
    (st.admitted.filter (fun a => decide (t - window_seconds < a) && decide (a ≤ t))).length
      ≤ max_requests) ∧
  (∀ a ∈ st.admitted, a ≤ tl)

/-- Python `RateLimiter.is_rate_limited` with the `try/except` of lines 24-60 made
explicit: `pipeRes` is the outcome of the prune-and-count pipeline (the
pruned count on success), `addRes` the outcome of the `zadd`.  Any store
error is caught and the method returns not-limited with the error string in
the info dict ("fail open"), never re-raising. -/
def is_rate_limited_try (pipeRes : Except (List Char) ℕ) (addRes : Except (List Char) Unit)
    (max_requests : ℕ) (window_seconds : ℤ) : Bool × RLInfo :=
  match pipeRes with
  | .error e => (false, .failOpen e)
  | .ok current_requests =>
    if current_requests ≥ max_requests then
      (true, .denied current_requests max_requests window_seconds window_seconds)
    else
      match addRes with
      | .error e => (false, .failOpen e)
      | .ok _ => (false, .allowed (current_requests + 1) max_requests window_seconds)

/-! ### Python string primitives

Python `str` values are modelled as `List Char`; `str.strip()`, `str.split()`
and `str.title()` are implemented below following Python semantics. -/

/-- A Python string. -/
abbrev PyStr := List Char

/-- Python whitespace characters (the ones relevant to `strip`/`split`). -/
def isSpaceChar (c : Char) : Bool :=
  decide (c = ' ') || decide (c = '\t') || decide (c = '\n') ||
    decide (c = '\r') || decide (c = '\x0b') || decide (c = '\x0c')

/-- Drop trailing whitespace. -/
def dropTrail (s : PyStr) : PyStr := (s.reverse.dropWhile isSpaceChar).reverse

/-- Python `str.strip()`: drop leading and trailing whitespace. -/
def pyStrip (s : PyStr) : PyStr := dropTrail (s.dropWhile isSpaceChar)

/-- Helper for `splitWs`: `acc` holds the reversed current word. -/
def splitWsAux : PyStr → PyStr → List PyStr
  | [], acc => if acc.isEmpty then [] else [acc.reverse]
  | c :: rest, acc =>
    if isSpaceChar c then
      if acc.isEmpty then splitWsAux rest [] else acc.reverse :: splitWsAux rest []
    else splitWsAux rest (c :: acc)

/-- Python `str.split()` with no argument: split on runs of whitespace,
discarding empty fragments. -/
def splitWs (s : PyStr) : List PyStr := splitWsAux s []

/-- Join words with single spaces (`" ".join` shape). -/
def joinSp : List PyStr → PyStr
  | [] => []
  | [w] => w
  | w :: ws => w ++ ' ' :: joinSp ws

/-! ### Streaming orchestrator (`gemini_service.py`, `StreamingGeminiService.stream_response`) -/

/-- One `streaming_response` chunk event (lines 169-176): the
`content`, `is_complete` and `progress` fields of its `data`. -/
structure Chunk where
  content : PyStr
  is_complete : Bool
  progress : ℚ
deriving DecidableEq

/-- The `current_response` accumulator after appending each word of `ws`
followed by a space (`current_response += word + " "`). -/
def pyAcc (ws : List PyStr) : PyStr :=
  ws.foldl (fun s w => s ++ w ++ [' ']) []

/-- The word loop of `stream_response` (lines 164-177): `n` is
`len(words)`, `i` the index of the next word, `cur` the accumulated
`current_response`; a chunk is sent when `i % 3 == 0 or i == len(words) - 1`,
with `content = current_response.strip()`, `is_complete = (i == len(words)-1)`
and `progress = (i+1)/len(words)`. -/
def streamLoopAux (n : ℕ) : List PyStr → ℕ → PyStr → List Chunk
  | [], _, _ => []
  | w :: rest, i, cur =>
    let cur2 := cur ++ w ++ [' ']
    (if i % 3 = 0 ∨ i = n - 1 then
       [{ content := pyStrip cur2, is_complete := decide (i = n - 1),
          progress := ((i : ℚ) + 1) / (n : ℚ) }]
     else []) ++ streamLoopAux n rest (i + 1) cur2

/-- The chunks sent to the websocket for the word list `ws`. -/
def streamChunks (ws : List PyStr) : List Chunk := streamLoopAux ws.length ws 0 []

/-- Python `words = response.text.strip().split()` (lines 160-161). -/
def wordsOf (text : PyStr) : List PyStr := splitWs (pyStrip text)

/-- The value returned by `stream_response` (line 179):
`current_response.strip()` after the loop. -/
def streamResultOf (text : PyStr) : PyStr := pyStrip (pyAcc (wordsOf text))

/-- The indices of the words at which a chunk is emitted. -/
def emitIdx (n : ℕ) : List ℕ :=
  (List.range n).filter (fun i => decide (i % 3 = 0) || decide (i = n - 1))

/-- Closed form of the chunk emitted at word index `i`. -/
def chunkAt (ws : List PyStr) (i : ℕ) : Chunk :=
  { content := pyStrip (pyAcc (ws.take (i + 1))),
    is_complete := decide (i = ws.length - 1),
    progress := ((i : ℚ) + 1) / (ws.length : ℚ) }

/-- Example provider text "a b c d" used as concrete witness input. -/
def streamTextEx : PyStr := ("a b c d").toList

/-- Example provider text with a newline, "a\nb". -/
def nlTextEx : PyStr := 'a' :: '\n' :: 'b' :: []

/-! ### Context builder (`gemini_service.py`, `ContextManager.build_context`) -/

/-- The two fields of a stored `ChatMessage` used by the context builder
(`models.py`: `message_type ∈ {user, assistant, system}` and `content`). -/
structure ChatMessage where
  message_type : PyStr
  content : PyStr

/-- Helper for Python `str.title()`: `prevAlpha` tells whether the previous
character was alphabetic (cased). -/
def titleAux : Bool → PyStr → PyStr
  | _, [] => []
  | prevAlpha, c :: rest =>
    (if c.isAlpha then (if prevAlpha then c.toLower else c.toUpper) else c) ::
      titleAux c.isAlpha rest

/-- Python `str.title()`: upper-case the first letter of each alphabetic run,
lower-case the rest. -/
def pyTitle (s : PyStr) : PyStr := titleAux false s

/-- The fixed system prompt of `build_context` (lines 66-69). -/
def systemPrompt : PyStr :=
  ("You are a helpful AI assistant. Provide clear, accurate, and engaging responses. " ++
   "Maintain conversation context and refer to previous messages when relevant.").toList

/-- The first context part, `f"System: {system_prompt}"`. -/
def systemLine : PyStr := ("System: ").toList ++ systemPrompt

/-- The last context part, `f"User: {current_message}"`. -/
def userLine (current : PyStr) : PyStr := ("User: ").toList ++ current

/-- A turn's rendered form `f"{message.message_type.title()}: {message.content}"`. -/
def render (m : ChatMessage) : PyStr :=
  pyTitle m.message_type ++ ':' :: ' ' :: m.content

/-- The `for message in reversed(messages)` loop (lines 74-80): walk the
rendered turns most-recent first, keeping each while the running total plus
`len(text) + 10` stays within `max_context_length`, and `break` at the first
overflow. -/
def takeRecent (maxLen : ℕ) : List PyStr → ℕ → List PyStr
  | [], _ => []
  | t :: rest, total =>
    if total + t.length + 10 > maxLen then []
    else t :: takeRecent maxLen rest (total + t.length + 10)

/-- Python `"\n".join(context_parts)`. -/
def joinNL : List PyStr → PyStr
  | [] => []
  | [p] => p
  | p :: q :: rest => p ++ '\n' :: joinNL (q :: rest)

/-- Python `ContextManager.build_context` (lines 60-85). -/
def build_context (messages : List ChatMessage) (current : PyStr) (maxLen : ℕ) : PyStr :=
  let total0 := current.length + 50 + (systemPrompt.length + 10)
  let recents := takeRecent maxLen (messages.reverse.map render) total0
  joinNL (systemLine :: (recents.reverse ++ [userLine current]))

/-- The cost the loop charges for a rendered turn list. -/
def renderCost (l : List PyStr) : ℕ := (l.map (fun t => t.length + 10)).sum

/-! ### Session protocol loop, message processing (`chat.py` lines 270-309)

The per-message processing block of `websocket_chat_endpoint`, abstracted
over the outcomes of its four fallible collaborator calls.  Only the events
sent over the websocket and whether the loop continues are observed. -/

/-- Success or raised exception of a collaborator call. -/
inductive Outcome
  | ok
  | fail
deriving DecidableEq

/-- Client-visible events sent during one message's processing:
`streamingChunks` stands for the `streaming_response` events,
`errorGeneration` for the error event sent inside `stream_response`
(GENERATION_ERROR), `errorProcessing` for the error event sent by the
`except` clause of the processing block (PROCESSING_ERROR). -/
inductive WsEvent
  | streamingChunks
  | errorGeneration
  | errorProcessing
deriving DecidableEq

/-- The `try`/`except` block at `chat.py` lines 271-309 for one inbound
message: stream the response (on provider failure `stream_response` sends a
GENERATION_ERROR event and re-raises), then persist the user turn, then the
assistant turn (each may raise), then record analytics inside its own
`try/except` that only logs.  The outer `except` sends a PROCESSING_ERROR
event.  The returned `Bool` tells whether the loop continues to the next
message (it always does: no path breaks out of `while True`). -/
def processMessage (stream persistUser persistAssistant analytics : Outcome) :
    List WsEvent × Bool :=
  match stream with
  | .fail => ([.errorGeneration, .errorProcessing], true)
  | .ok =>
    match persistUser with
    | .fail => ([.streamingChunks, .errorProcessing], true)
    | .ok =>
      match persistAssistant with
      | .fail => ([.streamingChunks, .errorProcessing], true)
      | .ok =>
        match analytics with
        | .fail => ([.streamingChunks], true)
        | .ok => ([.streamingChunks], true)

/-! ### Connection registry (`chat.py`, class `ConnectionManager`) -/

/-- A websocket handle; `healthy` tells whether `send_json` on the underlying
channel succeeds. -/
structure WsHandle where
  hid : ℕ
  healthy : Bool
deriving DecidableEq

/-- The `active_connections` dict, as an association list with unique keys
(first-match lookup, in-place overwrite on existing key). -/
abbrev ConnMap := List (String × WsHandle)

/-- Python `connection_id = f"{user_id}_{session_id}"`. -/
def connectionId (userId sessionId : String) : String := userId ++ "_" ++ sessionId

/-- Python dict assignment `d[k] = v`. -/
def dictSet : ConnMap → String → WsHandle → ConnMap
  | [], k, v => [(k, v)]
  | (k', v') :: rest, k, v =>
    if k' = k then (k, v) :: rest else (k', v') :: dictSet rest k v

/-- Python dict lookup (`k in d` / `d[k]`). -/
def dictGet : ConnMap → String → Option WsHandle
  | [], _ => none
  | (k', v') :: rest, k => if k' = k then some v' else dictGet rest k

/-- The number of entries reachable under key `k`. -/
def countKey (m : ConnMap) (k : String) : ℕ :=
  (m.filter (fun p => decide (p.1 = k))).length

/-- Python `ConnectionManager.connect` (lines 31-35): store the handle under the
composite key, overwriting any previous registration. -/
def cmConnect (m : ConnMap) (ws : WsHandle) (sessionId userId : String) : ConnMap :=
  dictSet m (connectionId userId sessionId) ws

/-- What `send_message` did. -/
inductive SendLog
  | delivered
  | skippedNoConnection
  | sendFailedLogged (e : List Char)
deriving DecidableEq

/-- The underlying `websocket.send_json`, which raises when the channel is
dead. -/
def sendJson (ws : WsHandle) : Except (List Char) Unit :=
  if ws.healthy then .ok () else .error (("send_json failed").toList)

/-- Python `ConnectionManager.send_message` (lines 43-49): do nothing when the key
is not registered; otherwise `send_json` inside `try/except`, logging a
failure.  The `Except` layer records whether the method itself raises — it
never does. -/
def send_message (m : ConnMap) (sessionId userId : String) : Except (List Char) SendLog :=
  match dictGet m (connectionId userId sessionId) with
  | none => .ok .skippedNoConnection
  | some ws =>
    match sendJson ws with
    | .ok _ => .ok .delivered
    | .error e => .ok (.sendFailedLogged e)

/-! ## Circuit breaker lemmas -/

theorem gate_of_closed (cb : CircuitBreaker) (h : cb.state = .CLOSED) (now : ℤ) :
    cb.gate now = some cb := by
  unfold CircuitBreaker.gate
  rw [h]

theorem call_false_of_closed (cb : CircuitBreaker) (h : cb.state = .CLOSED) (now : ℤ) :
    cb.call now false = .completed (cb.on_failure now) false := by
  simp [CircuitBreaker.call, gate_of_closed cb h now]

theorem on_failure_count (cb : CircuitBreaker) (now : ℤ) :
    (cb.on_failure now).failure_count = cb.failure_count + 1 := by
  unfold CircuitBreaker.on_failure
  dsimp only
  split <;> rfl

theorem on_failure_lft (cb : CircuitBreaker) (now : ℤ) :
    (cb.on_failure now).last_failure_time = some now := by
  unfold CircuitBreaker.on_failure
  dsimp only
  split <;> rfl

theorem on_failure_threshold (cb : CircuitBreaker) (now : ℤ) :
    (cb.on_failure now).failure_threshold = cb.failure_threshold := by
  unfold CircuitBreaker.on_failure
  dsimp only
  split <;> rfl

theorem on_failure_timeout (cb : CircuitBreaker) (now : ℤ) :
    (cb.on_failure now).recovery_timeout = cb.recovery_timeout := by
  unfold CircuitBreaker.on_failure
  dsimp only
  split <;> rfl

theorem on_failure_state_open (cb : CircuitBreaker) (now : ℤ)
    (h : cb.failure_count + 1 ≥ cb.failure_threshold) :
    (cb.on_failure now).state = .OPEN := by
  unfold CircuitBreaker.on_failure
  dsimp only
  rw [if_pos h]

theorem on_failure_state_lt (cb : CircuitBreaker) (now : ℤ)
    (h : cb.failure_count + 1 < cb.failure_threshold) :
    (cb.on_failure now).state = cb.state := by
  unfold CircuitBreaker.on_failure
  dsimp only
  rw [if_neg (by omega)]

theorem on_success_eq (cb : CircuitBreaker) :
    cb.on_success = { cb with failure_count := 0, state := .CLOSED } := rfl

theorem on_failure_eq_of_ge (cb : CircuitBreaker) (now : ℤ)
    (h : cb.failure_threshold ≤ cb.failure_count + 1) :
    cb.on_failure now =
      { cb with
        failure_count := cb.failure_count + 1
        last_failure_time := some now
        state := .OPEN } := by
  unfold CircuitBreaker.on_failure
  dsimp only
  split
  · rfl
  · next hcond => exact absurd (by simpa using h) hcond

theorem failRun_append (cb : CircuitBreaker) (l : List ℤ) (x : ℤ) :
    failRun cb (l ++ [x]) = afterCall ((failRun cb l).call x false) := by
  simp [failRun, List.foldl_append]

/-- Behaviour of a run of consecutive failures from a CLOSED breaker that
stays within the failure threshold. -/
theorem failRun_spec (ts : List ℤ) : ∀ cb : CircuitBreaker,
    cb.state = .CLOSED →
    cb.failure_count + ts.length ≤ cb.failure_threshold →
    (failRun cb ts).failure_threshold = cb.failure_threshold ∧
    (failRun cb ts).recovery_timeout = cb.recovery_timeout ∧
    (failRun cb ts).failure_count = cb.failure_count + ts.length ∧
    (ts ≠ [] → (failRun cb ts).last_failure_time = ts.getLast?) ∧
    (cb.failure_count + ts.length < cb.failure_threshold → (failRun cb ts).state = .CLOSED) ∧
    (ts ≠ [] → cb.failure_count + ts.length = cb.failure_threshold →
      (failRun cb ts).state = .OPEN) := by
  induction ts with
  | nil =>
    intro cb hc _
    refine ⟨rfl, rfl, by simp [failRun], by simp, fun _ => hc, by simp⟩
  | cons t rest ih =>
    intro cb hc hle
    have hstep : failRun cb (t :: rest) = failRun (cb.on_failure t) rest := by
      simp [failRun, call_false_of_closed cb hc t, afterCall]
    rcases rest with _ | ⟨r, rest'⟩
    · -- single failure
      have h1 : failRun cb [t] = cb.on_failure t := hstep
      rw [h1]
      refine ⟨on_failure_threshold cb t, on_failure_timeout cb t, ?_, ?_, ?_, ?_⟩
      · rw [on_failure_count]; simp
      · intro _; rw [on_failure_lft]; simp
      · intro hlt
        rw [on_failure_state_lt cb t (by simp at hlt; omega)]
        exact hc
      · intro _ heq
        exact on_failure_state_open cb t (by simp at heq ⊢; omega)
    · -- at least two failures: the first keeps the breaker CLOSED
      have hc1 : (cb.on_failure t).state = .CLOSED := by
        rw [on_failure_state_lt cb t (by simp at hle; omega)]
        exact hc
      have hle1 : (cb.on_failure t).failure_count + (r :: rest').length ≤
          (cb.on_failure t).failure_threshold := by
        rw [on_failure_count, on_failure_threshold]
        simp at hle ⊢
        omega
      obtain ⟨h1, h2, h3, h4, h5, h6⟩ := ih (cb.on_failure t) hc1 hle1
      rw [hstep]
      refine ⟨by rw [h1, on_failure_threshold], by rw [h2, on_failure_timeout], ?_, ?_, ?_, ?_⟩
      · rw [h3, on_failure_count]; simp; omega
      · intro _
        rw [h4 (by simp)]
        simp [List.getLast?]
      · intro hlt
        refine h5 ?_
        rw [on_failure_count, on_failure_threshold]
        simp at hlt ⊢
        omega
      · intro _ heq
        refine h6 (by simp) ?_
        rw [on_failure_count, on_failure_threshold]
        simp at heq ⊢
        omega

theorem gate_open_recent (cb : CircuitBreaker) (tl now : ℤ)
    (hs : cb.state = .OPEN) (hl : cb.last_failure_time = some tl)
    (h : ¬ now - tl > cb.recovery_timeout) : cb.gate now = none := by
  simp [CircuitBreaker.gate, hs, hl, h]

theorem gate_open_elapsed (cb : CircuitBreaker) (tl now : ℤ)
    (hs : cb.state = .OPEN) (hl : cb.last_failure_time = some tl)
    (h : now - tl > cb.recovery_timeout) :
    cb.gate now = some { cb with state := .HALF_OPEN } := by
  simp [CircuitBreaker.gate, hs, hl, h]

/-- In a failing run within the threshold, every step is an invoked call
whose state is the run so far. -/
theorem failRun_step (ts : List ℤ) (cb : CircuitBreaker) (hc : cb.state = .CLOSED)
    (hle : cb.failure_count + ts.length ≤ cb.failure_threshold)
    (i : ℕ) (hi : i < ts.length) :
    (failRun cb (ts.take i)).call (ts.get ⟨i, hi⟩) false
      = .completed (failRun cb (ts.take (i + 1))) false := by
  have hilen : (ts.take i).length = i := by simp; omega
  have hclosed : (failRun cb (ts.take i)).state = .CLOSED := by
    have h := failRun_spec (ts.take i) cb hc (by rw [hilen]; omega)
    exact h.2.2.2.2.1 (by rw [hilen]; omega)
  have htake : ts.take (i + 1) = ts.take i ++ [ts.get ⟨i, hi⟩] := by
    rw [List.take_succ, List.getElem?_eq_getElem hi]
    simp [List.get_eq_getElem]
  rw [htake, failRun_append, call_false_of_closed _ hclosed]
  rfl

/-- C1: after exactly `failure_threshold` consecutive failures recorded by
`call` (each of which invoked the wrapped function), the breaker is OPEN with
counter `T` and the last failure's time recorded; a further `call` within the
recovery timeout is rejected with the "temporarily unavailable" error without
invoking the wrapped function and without changing the state; once more than
`recovery_timeout` has elapsed the state check moves the breaker to HALF_OPEN
and the call proceeds as a trial: a successful trial resets the counter to 0
and the state to CLOSED, a failed trial sets `last_failure_time` to the trial
time and returns the state to OPEN. -/
theorem C1_circuit_breaker_trip_and_recover (T : ℕ) (R : ℤ) (ts : List ℤ)
    (hT : 1 ≤ T) (hlen : ts.length = T) :
    (∀ i (hi : i < ts.length),
       (failRun (CircuitBreaker.init T R) (ts.take i)).call (ts.get ⟨i, hi⟩) false
         = .completed (failRun (CircuitBreaker.init T R) (ts.take (i + 1))) false) ∧
    (breakerAfterFailures T R ts).state = .OPEN ∧
    (breakerAfterFailures T R ts).failure_count = T ∧
    (breakerAfterFailures T R ts).last_failure_time = some (ts.getLastD 0) ∧
    (∀ now ok, now - ts.getLastD 0 ≤ R →
       (breakerAfterFailures T R ts).call now ok
         = .rejected circuitOpenMsg (breakerAfterFailures T R ts)) ∧
    (∀ now, R < now - ts.getLastD 0 →
       (breakerAfterFailures T R ts).gate now
           = some { breakerAfterFailures T R ts with state := .HALF_OPEN } ∧
       (breakerAfterFailures T R ts).call now true
           = .completed { breakerAfterFailures T R ts with
                          failure_count := 0, state := .CLOSED } true ∧
       (breakerAfterFailures T R ts).call now false
           = .completed { breakerAfterFailures T R ts with
                          failure_count := (breakerAfterFailures T R ts).failure_count + 1,
                          last_failure_time := some now, state := .OPEN } false) := by
  have hne : ts ≠ [] := by
    intro h
    rw [h] at hlen
    simp at hlen
    omega
  have hinit : (CircuitBreaker.init T R).state = .CLOSED := rfl
  have hbound : (CircuitBreaker.init T R).failure_count + ts.length ≤
      (CircuitBreaker.init T R).failure_threshold := by
    simp [CircuitBreaker.init, hlen]
  obtain ⟨h1, h2, h3, h4, h5, h6⟩ := failRun_spec ts (CircuitBreaker.init T R) hinit hbound
  have hstate : (breakerAfterFailures T R ts).state = .OPEN :=
    h6 hne (by simp [CircuitBreaker.init, hlen])
  have hcount : (breakerAfterFailures T R ts).failure_count = T := by
    rw [breakerAfterFailures, h3]
    simp [CircuitBreaker.init, hlen]
  have hthr : (breakerAfterFailures T R ts).failure_threshold = T := h1
  have htmo : (breakerAfterFailures T R ts).recovery_timeout = R := h2
  have hlast : ts.getLast? = some (ts.getLastD 0) := by
    cases h : ts.getLast? with
    | none => exact absurd (List.getLast?_eq_none_iff.mp h) hne
    | some x => rw [List.getLastD_eq_getLast?, h]; rfl
  have hlft : (breakerAfterFailures T R ts).last_failure_time = some (ts.getLastD 0) := by
    rw [breakerAfterFailures, h4 hne, hlast]
  refine ⟨fun i hi => failRun_step ts _ hinit hbound i hi, hstate, hcount, hlft, ?_, ?_⟩
  · intro now ok hrec
    have hgate : (breakerAfterFailures T R ts).gate now = none := by
      refine gate_open_recent _ (ts.getLastD 0) now hstate hlft ?_
      rw [htmo]
      omega
    unfold CircuitBreaker.call
    rw [hgate]
  · intro now hrec
    have hgate : (breakerAfterFailures T R ts).gate now
        = some { breakerAfterFailures T R ts with state := .HALF_OPEN } := by
      refine gate_open_elapsed _ (ts.getLastD 0) now hstate hlft ?_
      rw [htmo]
      omega
    refine ⟨hgate, ?_, ?_⟩
    · unfold CircuitBreaker.call
      rw [hgate]
      rfl
    · unfold CircuitBreaker.call
      rw [hgate]
      simp only [Bool.false_eq_true, if_false]
      rw [on_failure_eq_of_ge _ now (by dsimp only; omega)]

/-- If the breaker is OPEN, some failure time has been recorded. -/
theorem reachable_open_lft (T : ℕ) (R : ℤ) (cb : CircuitBreaker)
    (h : Reachable T R cb) : cb.state = .OPEN → cb.last_failure_time.isSome := by
  induction h with
  | init => intro hs; simp [CircuitBreaker.init] at hs
  | step cb now ok _ ih =>
    intro hs
    cases hg : cb.gate now with
    | none =>
      simp only [CircuitBreaker.call, hg, afterCall] at hs ⊢
      exact ih hs
    | some cb1 =>
      cases ok with
      | true =>
        simp [CircuitBreaker.call, hg, afterCall, CircuitBreaker.on_success] at hs
      | false =>
        simp only [CircuitBreaker.call, hg, Bool.false_eq_true, if_false, afterCall]
        rw [on_failure_lft]
        rfl

/-- C9: in every state reachable from a fresh breaker by any sequence of
call outcomes, `state == OPEN` implies `last_failure_time` is set; and an
access attempted in the OPEN state more than `recovery_timeout` after the
recorded failure moves the state to HALF_OPEN before deciding. -/
theorem C9_open_invariant (T : ℕ) (R : ℤ) (cb : CircuitBreaker)
    (h : Reachable T R cb) :
    (cb.state = .OPEN → cb.last_failure_time.isSome) ∧
    (∀ now tl, cb.state = .OPEN → cb.last_failure_time = some tl →
       cb.recovery_timeout < now - tl →
       cb.gate now = some { cb with state := .HALF_OPEN }) := by
  refine ⟨reachable_open_lft T R cb h, ?_⟩
  intro now tl hs hl hlt
  exact gate_open_elapsed cb tl now hs hl hlt

/-- Witness for C1: threshold 2, timeout 5, failures at times 0 and 1. -/
theorem C1_circuit_breaker_trip_and_recover_witness :
    (breakerAfterFailures 2 5 [0, 1]).state = .OPEN ∧
    (breakerAfterFailures 2 5 [0, 1]).failure_count = 2 ∧
    (breakerAfterFailures 2 5 [0, 1]).last_failure_time = some 1 ∧
    (breakerAfterFailures 2 5 [0, 1]).call 6 true
      = .rejected circuitOpenMsg (breakerAfterFailures 2 5 [0, 1]) ∧
    (breakerAfterFailures 2 5 [0, 1]).call 7 true
      = .completed { breakerAfterFailures 2 5 [0, 1] with
                     failure_count := 0, state := .CLOSED } true ∧
    (breakerAfterFailures 2 5 [0, 1]).call 7 false
      = .completed { breakerAfterFailures 2 5 [0, 1] with
                     failure_count := (breakerAfterFailures 2 5 [0, 1]).failure_count + 1,
                     last_failure_time := some 7, state := .OPEN } false := by
  have h := C1_circuit_breaker_trip_and_recover 2 5 [0, 1] (by decide) (by decide)
  exact ⟨h.2.1, h.2.2.1, h.2.2.2.1, h.2.2.2.2.1 6 true (by decide),
    (h.2.2.2.2.2 7 (by decide)).2.1, (h.2.2.2.2.2 7 (by decide)).2.2⟩

/-- Witness for C9: after a single failure trips a threshold-1 breaker, the
invariant applies at a concrete reachable OPEN state. -/
theorem C9_open_invariant_witness :
    (afterCall ((CircuitBreaker.init 1 5).call 0 false)).last_failure_time.isSome ∧
    (afterCall ((CircuitBreaker.init 1 5).call 0 false)).gate 6
      = some { afterCall ((CircuitBreaker.init 1 5).call 0 false) with state := .HALF_OPEN } := by
  have h := C9_open_invariant 1 5 _
    (Reachable.step (CircuitBreaker.init 1 5) 0 false Reachable.init)
  exact ⟨h.1 (by decide), h.2 6 0 (by decide) (by decide) (by decide)⟩

/-! ## Rate limiter lemmas -/

/-- Admitted timestamps inside the window anchored at the current call time
survive a prune at that time. -/
theorem rl_filter_sub_store (st : RLState) (W tl tc : ℤ)
    (h1 : List.Sublist (st.admitted.filter (fun a => decide (tl - W < a))) st.store)
    (hle : tl ≤ tc) :
    List.Sublist (st.admitted.filter (fun a => decide (tc - W < a)))
      (zremrange st.store 0 (tc - W)) := by
  have heq : st.admitted.filter (fun a => decide (tc - W < a))
      = (st.admitted.filter (fun a => decide (tl - W < a))).filter
          (fun a => decide (tc - W < a)) := by
    rw [List.filter_filter]
    refine (List.filter_congr ?_).symm
    intro a _
    by_cases h : tc - W < a
    · have h' : tl - W < a := by omega
      simp [h, h']
    · simp [h]
  rw [heq]
  refine (h1.filter _).trans ?_
  refine List.monotone_filter_right _ ?_
  intro a ha
  simp only [Bool.not_eq_true', Bool.and_eq_false_iff, decide_eq_false_iff_not, not_le]
  simp only [decide_eq_true_eq] at ha
  omega

/-- One limiter call preserves the invariant. -/
theorem rl_step_inv (N : ℕ) (W : ℤ) (st : RLState) (tl tc : ℤ)
    (hinv : RLInv N W st tl) (hle : tl ≤ tc) :
    RLInv N W (is_rate_limited st N W tc).2.2 tc := by
  obtain ⟨h1, h2, h3⟩ := hinv
  have hsub := rl_filter_sub_store st W tl tc h1 hle
  unfold is_rate_limited
  by_cases hc : (zremrange st.store 0 (tc - W)).length ≥ N
  · rw [if_pos hc]
    exact ⟨hsub, h2, fun a ha => le_trans (h3 a ha) hle⟩
  · rw [if_neg hc]
    refine ⟨?_, ?_, ?_⟩
    · dsimp only
      rw [List.filter_append]
      refine List.Sublist.append hsub ?_
      exact List.filter_sublist _
    · intro t
      dsimp only
      rw [List.filter_append, List.length_append]
      by_cases hwin : (decide (t - W < tc) && decide (tc ≤ t)) = true
      · have hlen1 : (st.admitted.filter
            (fun a => decide (t - W < a) && decide (a ≤ t))).length
            ≤ (zremrange st.store 0 (tc - W)).length := by
          refine le_trans (List.Sublist.length_le ?_) (List.Sublist.length_le hsub)
          refine List.monotone_filter_right _ ?_
          intro a ha
          simp only [Bool.and_eq_true, decide_eq_true_eq] at ha hwin ⊢
          omega
        have : ([tc].filter (fun a => decide (t - W < a) && decide (a ≤ t))).length ≤ 1 := by
          simp [List.filter]
          split <;> simp
        omega
      · have : [tc].filter (fun a => decide (t - W < a) && decide (a ≤ t)) = [] := by
          simp [List.filter, hwin]
        rw [this]
        simpa using h2 t
    · intro a ha
      dsimp only at ha
      rw [List.mem_append] at ha
      rcases ha with ha | ha
      · exact le_trans (h3 a ha) hle
      · simp at ha
        omega

/-- The invariant holds along any chronologically ordered run. -/
theorem rlRun_inv (N : ℕ) (W : ℤ) : ∀ (ts : List ℤ) (st : RLState) (tl : ℤ),
    RLInv N W st tl → List.Chain (· ≤ ·) tl ts →
    ∃ tl', RLInv N W (ts.foldl (fun st t => (is_rate_limited st N W t).2.2) st) tl' := by
  intro ts
  induction ts with
  | nil => intro st tl hinv _; exact ⟨tl, hinv⟩
  | cons t rest ih =>
    intro st tl hinv hchain
    cases hchain with
    | cons hle hchain' => exact ih _ t (rl_step_inv N W st tl t hinv hle) hchain'

/-- C2: the limiter prunes expired entries before reading the count, denies
with the documented info (recording nothing) once the count reaches
`max_requests`, otherwise records a new entry and allows with
`requests_made = count + 1`; and along any chronologically ordered sequence
of calls, at most `max_requests` admitted calls fall inside any trailing
window of length `window_seconds`. -/
theorem C2_sliding_window_limiter (N : ℕ) (W : ℤ) :
    (∀ (st : RLState) (now : ℤ),
      (∀ x ∈ zremrange st.store 0 (now - W), 0 ≤ x → now - W < x) ∧
      ((zremrange st.store 0 (now - W)).length ≥ N →
        is_rate_limited st N W now
          = (true, .denied (zremrange st.store 0 (now - W)).length N W W,
             { store := zremrange st.store 0 (now - W), admitted := st.admitted })) ∧
      ((zremrange st.store 0 (now - W)).length < N →
        is_rate_limited st N W now
          = (false, .allowed ((zremrange st.store 0 (now - W)).length + 1) N W,
             { store := zremrange st.store 0 (now - W) ++ [now],
               admitted := st.admitted ++ [now] }))) ∧
    (∀ ts : List ℤ, ts.Chain' (· ≤ ·) → ∀ t : ℤ,
      ((rlRun N W ts).admitted.filter
        (fun a => decide (t - W < a) && decide (a ≤ t))).length ≤ N) := by
  refine ⟨?_, ?_⟩
  · intro st now
    refine ⟨?_, ?_, ?_⟩
    · intro x hx hx0
      unfold zremrange at hx
      rw [List.mem_filter] at hx
      have := hx.2
      simp only [Bool.not_eq_true', Bool.and_eq_false_iff, decide_eq_false_iff_not, not_le]
        at this
      rcases this with h | h
      · omega
      · omega
    · intro h
      unfold is_rate_limited
      rw [if_pos h]
    · intro h
      unfold is_rate_limited
      rw [if_neg (by omega)]
  · intro ts hts t
    rcases ts with _ | ⟨t0, rest⟩
    · simp [rlRun]
    · have hinit : RLInv N W { store := [], admitted := [] } t0 := by
        refine ⟨by simp, by simp, by simp⟩
      have hchain : List.Chain (· ≤ ·) t0 (t0 :: rest) :=
        List.Chain.cons le_rfl hts
      obtain ⟨tl', hinv⟩ := rlRun_inv N W (t0 :: rest) _ t0 hinit hchain
      obtain ⟨-, h2, -⟩ := hinv
      exact h2 t

/-- Witness for C2: `N = 2`, `W = 10`, calls at times 0, 1, 2, 11. -/
theorem C2_sliding_window_limiter_witness :
    is_rate_limited { store := [0, 1], admitted := [0, 1] } 2 10 2
      = (true, .denied 2 2 10 10, { store := [0, 1], admitted := [0, 1] }) ∧
    is_rate_limited { store := [0], admitted := [0] } 2 10 1
      = (false, .allowed 2 2 10, { store := [0, 1], admitted := [0, 1] }) ∧
    ((rlRun 2 10 [0, 1, 2, 11]).admitted.filter
      (fun a => decide (1 - 10 < a) && decide (a ≤ 1))).length ≤ 2 := by
  have h := C2_sliding_window_limiter 2 10
  refine ⟨?_, ?_, h.2 [0, 1, 2, 11] (by norm_num [List.chain'_cons]) 1⟩
  · have := (h.1 { store := [0, 1], admitted := [0, 1] } 2).2.1 (by decide)
    simpa using this
  · have := (h.1 { store := [0], admitted := [0] } 1).2.2 (by decide)
    simpa using this

/-- C3: a store error during the limiter check is caught, never propagated:
the call reports not-limited with the underlying error in the info dict. -/
theorem C3_fail_open (N : ℕ) (W : ℤ) (pipeRes : Except (List Char) ℕ)
    (addRes : Except (List Char) Unit) :
    (∀ e, pipeRes = .error e →
      is_rate_limited_try pipeRes addRes N W = (false, .failOpen e)) ∧
    (∀ e c, pipeRes = .ok c → c < N → addRes = .error e →
      is_rate_limited_try pipeRes addRes N W = (false, .failOpen e)) := by
  refine ⟨?_, ?_⟩
  · intro e he
    rw [he]
    rfl
  · intro e c hc hlt he
    rw [hc, he]
    unfold is_rate_limited_try
    dsimp only
    rw [if_neg (by omega)]

/-- Witness for C3: a failing pipeline and a failing `zadd`. -/
theorem C3_fail_open_witness :
    is_rate_limited_try (.error (("connection refused").toList)) (.ok ()) 60 60
      = (false, .failOpen (("connection refused").toList)) ∧
    is_rate_limited_try (.ok 0) (.error (("connection refused").toList)) 60 60
      = (false, .failOpen (("connection refused").toList)) := by
  have h := C3_fail_open 60 60
  exact ⟨(h (.error (("connection refused").toList)) (.ok ())).1 _ rfl,
    (h (.ok 0) (.error (("connection refused").toList))).2 _ 0 rfl (by omega) rfl⟩

/-! ## Connection registry lemmas -/

theorem dictGet_dictSet (m : ConnMap) (k : String) (v : WsHandle) :
    dictGet (dictSet m k v) k = some v := by
  induction m with
  | nil => simp [dictSet, dictGet]
  | cons p rest ih =>
    obtain ⟨k', v'⟩ := p
    by_cases h : k' = k
    · simp [dictSet, h, dictGet]
    · simp [dictSet, h, dictGet, ih]

theorem countKey_eq_zero (m : ConnMap) (k : String) (h : k ∉ m.map Prod.fst) :
    countKey m k = 0 := by
  induction m with
  | nil => rfl
  | cons p rest ih =>
    obtain ⟨k', v'⟩ := p
    simp only [List.map_cons, List.mem_cons] at h
    push_neg at h
    unfold countKey List.filter
    rw [decide_eq_false (by simpa using (h.1).symm)]
    exact ih h.2

theorem mem_keys_dictSet (m : ConnMap) (k : String) (v : WsHandle) (x : String)
    (hx : x ∈ (dictSet m k v).map Prod.fst) : x ∈ m.map Prod.fst ∨ x = k := by
  induction m with
  | nil => simp [dictSet] at hx; simp [hx]
  | cons p rest ih =>
    obtain ⟨k', v'⟩ := p
    by_cases h : k' = k
    · simp only [dictSet, if_pos h, List.map_cons, List.mem_cons] at hx
      rcases hx with hx | hx
      · exact Or.inr hx
      · exact Or.inl (by simp [hx])
    · simp only [dictSet, if_neg h, List.map_cons, List.mem_cons] at hx
      rcases hx with hx | hx
      · exact Or.inl (by simp [hx])
      · rcases ih hx with h' | h'
        · exact Or.inl (by simp [h'])
        · exact Or.inr h'

theorem keys_nodup_dictSet (m : ConnMap) (k : String) (v : WsHandle)
    (h : (m.map Prod.fst).Nodup) : ((dictSet m k v).map Prod.fst).Nodup := by
  induction m with
  | nil => simp [dictSet]
  | cons p rest ih =>
    obtain ⟨k', v'⟩ := p
    simp only [List.map_cons, List.nodup_cons] at h
    by_cases hk : k' = k
    · simp only [dictSet, if_pos hk, List.map_cons, List.nodup_cons]
      subst hk
      exact h
    · simp only [dictSet, if_neg hk, List.map_cons, List.nodup_cons]
      refine ⟨?_, ih h.2⟩
      intro hmem
      rcases mem_keys_dictSet rest k v k' hmem with h' | h'
      · exact h.1 h'
      · exact hk h'

theorem countKey_dictSet (m : ConnMap) (k : String) (v : WsHandle)
    (h : (m.map Prod.fst).Nodup) : countKey (dictSet m k v) k = 1 := by
  induction m with
  | nil => simp [dictSet, countKey, List.filter]
  | cons p rest ih =>
    obtain ⟨k', v'⟩ := p
    simp only [List.map_cons, List.nodup_cons] at h
    by_cases hk : k' = k
    · subst hk
      rw [show dictSet ((k', v') :: rest) k' v = (k', v) :: rest by simp [dictSet]]
      unfold countKey
      rw [List.filter_cons_of_pos (by simp)]
      simp only [List.length_cons]
      have := countKey_eq_zero rest k' h.1
      unfold countKey at this
      omega
    · simp only [dictSet, if_neg hk]
      unfold countKey
      rw [List.filter_cons_of_neg (by simp [hk])]
      exact ih h.2

/-- C8: registering twice under the same `(session, subject)` key leaves
exactly one reachable handle, the one registered last; `send_message` to an
unregistered key is a no-op, and it never raises to the caller even when the
underlying channel fails. -/
theorem C8_connection_registry (m : ConnMap) (w1 w2 : WsHandle) (sid uid : String)
    (hnd : (m.map Prod.fst).Nodup) :
    dictGet (cmConnect (cmConnect m w1 sid uid) w2 sid uid) (connectionId uid sid)
      = some w2 ∧
    countKey (cmConnect (cmConnect m w1 sid uid) w2 sid uid) (connectionId uid sid) = 1 ∧
    (∀ (m' : ConnMap) (sid' uid' : String),
       dictGet m' (connectionId uid' sid') = none →
       send_message m' sid' uid' = .ok .skippedNoConnection) ∧
    (∀ (m' : ConnMap) (sid' uid' : String), ∃ r, send_message m' sid' uid' = .ok r) := by
  refine ⟨dictGet_dictSet _ _ _, ?_, ?_, ?_⟩
  · exact countKey_dictSet _ _ _ (keys_nodup_dictSet m _ w1 hnd)
  · intro m' sid' uid' h
    unfold send_message
    rw [h]
  · intro m' sid' uid'
    unfold send_message
    cases dictGet m' (connectionId uid' sid') with
    | none => exact ⟨.skippedNoConnection, rfl⟩
    | some ws =>
      by_cases h : ws.healthy
      · refine ⟨.delivered, ?_⟩
        simp [sendJson, h]
      · refine ⟨.sendFailedLogged (("send_json failed").toList), ?_⟩
        simp [sendJson, h]

/-- Witness for C8 at a concrete registry. -/
theorem C8_connection_registry_witness :
    dictGet (cmConnect (cmConnect [(("a_b" : String), ⟨7, true⟩)] ⟨1, true⟩ ("s1") ("u1"))
        ⟨2, false⟩ ("s1") ("u1")) (connectionId ("u1") ("s1")) = some ⟨2, false⟩ ∧
    countKey (cmConnect (cmConnect [(("a_b" : String), ⟨7, true⟩)] ⟨1, true⟩ ("s1") ("u1"))
        ⟨2, false⟩ ("s1") ("u1")) (connectionId ("u1") ("s1")) = 1 ∧
    send_message ([] : ConnMap) ("s9") ("u9") = .ok .skippedNoConnection ∧
    ∃ r, send_message [((connectionId ("u1") ("s1")), ⟨2, false⟩)] ("s1") ("u1") = .ok r := by
  have h := C8_connection_registry [(("a_b" : String), ⟨7, true⟩)] ⟨1, true⟩ ⟨2, false⟩
    ("s1") ("u1") (by simp)
  exact ⟨h.1, h.2.1, h.2.2.1 [] ("s9") ("u9") rfl, h.2.2.2 _ ("s1") ("u1")⟩

/-! ## Session protocol loop: per-message error handling -/

/-- Counterexample for C7: with the provider call succeeding and the
persistence of the user turn failing, the handler at `chat.py` lines 304-309
DOES surface an error to the client (a PROCESSING_ERROR event), contradicting
the claim that persistence failures are swallowed with no error surfaced. -/
theorem C7_persistence_error_surfaced :
    (processMessage .ok .fail .ok .ok).1 = [.streamingChunks, .errorProcessing] ∧
    WsEvent.errorProcessing ∈ (processMessage .ok .fail .ok .ok).1 := by decide

/-- C7 (amended): after streaming completes, an analytics failure is
swallowed: no error event is sent; but a failure persisting the user or the
assistant turn escapes to the outer handler, which sends a PROCESSING_ERROR
event to the client; in every case the loop continues to the next message. -/
theorem C7_amended_failure_handling (persistUser persistAssistant analytics : Outcome) :
    (processMessage .ok persistUser persistAssistant analytics).2 = true ∧
    (persistUser = .ok → persistAssistant = .ok →
      (processMessage .ok persistUser persistAssistant analytics).1 = [.streamingChunks]) ∧
    ((persistUser = .fail ∨ persistAssistant = .fail) →
      (processMessage .ok persistUser persistAssistant analytics).1
        = [.streamingChunks, .errorProcessing]) := by
  cases persistUser <;> cases persistAssistant <;> cases analytics <;>
    refine ⟨rfl, ?_, ?_⟩ <;> decide

/-- Witness for the amended C7. -/
theorem C7_amended_failure_handling_witness :
    (processMessage .ok .ok .ok .fail).1 = [.streamingChunks] ∧
    (processMessage .ok .fail .ok .ok).1 = [.streamingChunks, .errorProcessing] ∧
    (processMessage .ok .ok .fail .ok).2 = true := by
  exact ⟨(C7_amended_failure_handling .ok .ok .fail).2.1 rfl rfl,
    (C7_amended_failure_handling .fail .ok .ok).2.2 (Or.inl rfl),
    (C7_amended_failure_handling .ok .fail .ok).1⟩

/-! ## Python string lemmas -/

/-- Every word produced by `split()` is non-empty and free of whitespace. -/
theorem splitWsAux_words (s : PyStr) : ∀ acc, (∀ c ∈ acc, isSpaceChar c = false) →
    ∀ w ∈ splitWsAux s acc, w ≠ [] ∧ ∀ c ∈ w, isSpaceChar c = false := by
  induction s with
  | nil =>
    intro acc hacc w hw
    unfold splitWsAux at hw
    by_cases hae : acc.isEmpty
    · rw [if_pos hae] at hw
      simp at hw
    · rw [if_neg hae] at hw
      simp only [List.mem_singleton] at hw
      subst hw
      refine ⟨?_, ?_⟩
      · simp only [ne_eq, List.reverse_eq_nil_iff]
        exact fun h => hae (by simp [h])
      · intro c hc
        exact hacc c (List.mem_reverse.mp hc)
  | cons c rest ih =>
    intro acc hacc w hw
    unfold splitWsAux at hw
    by_cases hc : isSpaceChar c
    · rw [if_pos hc] at hw
      by_cases hae : acc.isEmpty
      · rw [if_pos hae] at hw
        exact ih [] (by simp) w hw
      · rw [if_neg hae] at hw
        rcases List.mem_cons.mp hw with hw | hw
        · subst hw
          refine ⟨?_, ?_⟩
          · simp only [ne_eq, List.reverse_eq_nil_iff]
            exact fun h => hae (by simp [h])
          · intro d hd
            exact hacc d (List.mem_reverse.mp hd)
        · exact ih [] (by simp) w hw
    · rw [if_neg hc] at hw
      refine ih (c :: acc) ?_ w hw
      intro d hd
      rcases List.mem_cons.mp hd with hd | hd
      · subst hd
        exact Bool.not_eq_true _ ▸ (by simpa using hc)
      · exact hacc d hd

theorem splitWs_words (s : PyStr) :
    ∀ w ∈ splitWs s, w ≠ [] ∧ ∀ c ∈ w, isSpaceChar c = false :=
  splitWsAux_words s [] (by simp)

theorem pyAcc_from (init : PyStr) (l : List PyStr) :
    l.foldl (fun s w => s ++ w ++ [' ']) init = init ++ pyAcc l := by
  induction l generalizing init with
  | nil => simp [pyAcc]
  | cons w rest ih =>
    simp only [List.foldl_cons, pyAcc]
    rw [ih, ih ((([] : PyStr) ++ w ++ [' ']))]
    simp

theorem pyAcc_cons (w : PyStr) (l : List PyStr) :
    pyAcc (w :: l) = w ++ [' '] ++ pyAcc l := by
  have h : pyAcc (w :: l)
      = List.foldl (fun s w => s ++ w ++ [' ']) (([] : PyStr) ++ w ++ [' ']) l := rfl
  rw [h, pyAcc_from]
  simp

theorem pyAcc_concat (l : List PyStr) (x : PyStr) :
    pyAcc (l ++ [x]) = pyAcc l ++ x ++ [' '] := by
  unfold pyAcc
  rw [List.foldl_append, pyAcc_from]
  simp [pyAcc]

theorem pyAcc_length (l : List PyStr) :
    (pyAcc l).length = ((l.map (fun w => w.length + 1)).sum) := by
  induction l with
  | nil => rfl
  | cons w rest ih => rw [pyAcc_cons]; simp [ih]; omega

theorem joinSp_cons_ne (w : PyStr) (l : List PyStr) (h : l ≠ []) :
    joinSp (w :: l) = w ++ ' ' :: joinSp l := by
  cases l with
  | nil => exact absurd rfl h
  | cons q rest => rfl

theorem joinSp_concat_eq_pyAcc (l : List PyStr) (x : PyStr) :
    joinSp (l ++ [x]) = pyAcc l ++ x := by
  induction l with
  | nil => simp [joinSp, pyAcc]
  | cons w rest ih =>
    rw [List.cons_append, joinSp_cons_ne w _ (by simp), ih, pyAcc_cons]
    simp

theorem joinSp_length (l : List PyStr) (h : l ≠ []) :
    (joinSp l).length + 1 = (pyAcc l).length := by
  induction l with
  | nil => exact absurd rfl h
  | cons w rest ih =>
    cases rest with
    | nil => simp [joinSp, pyAcc_cons, pyAcc]
    | cons q rest' =>
      have hih := ih (by simp)
      rw [joinSp_cons_ne w _ (by simp), pyAcc_cons]
      simp only [List.length_append, List.length_cons, List.length_singleton,
        List.length_nil]
      omega

theorem dropWhile_pyAcc (l : List PyStr) (hne : l ≠ [])
    (hw : ∀ w ∈ l, w ≠ [] ∧ ∀ c ∈ w, isSpaceChar c = false) :
    (pyAcc l).dropWhile isSpaceChar = pyAcc l := by
  cases l with
  | nil => exact absurd rfl hne
  | cons w rest =>
    obtain ⟨hwne, hwc⟩ := hw w (by simp)
    cases w with
    | nil => exact absurd rfl hwne
    | cons c w' =>
      rw [pyAcc_cons]
      simp only [List.cons_append, List.append_assoc]
      rw [List.dropWhile_cons]
      rw [hwc c (by simp)]
      simp

theorem dropTrail_pyAcc_concat (l : List PyStr) (x : PyStr) (hx : x ≠ [])
    (hxc : ∀ c ∈ x, isSpaceChar c = false) :
    dropTrail (pyAcc (l ++ [x])) = pyAcc l ++ x := by
  rw [pyAcc_concat]
  unfold dropTrail
  have hrev : (pyAcc l ++ x ++ [' ']).reverse = ' ' :: (x.reverse ++ (pyAcc l).reverse) := by
    simp
  rw [hrev, List.dropWhile_cons]
  have hsp : isSpaceChar ' ' = true := by decide
  rw [hsp]
  simp only [if_pos]
  cases hxr : x.reverse with
  | nil => exact absurd (by simpa using hxr) hx
  | cons c xs =>
    have hcx : c ∈ x := by
      have : c ∈ x.reverse := by rw [hxr]; simp
      exact List.mem_reverse.mp this
    rw [List.cons_append, List.dropWhile_cons, hxc c hcx]
    simp only [Bool.false_eq_true, if_false]
    rw [← List.cons_append, ← hxr]
    simp

/-- For a non-empty list of non-empty whitespace-free words,
`current_response.strip()` is the single-space join of the words. -/
theorem pyStrip_pyAcc (l : List PyStr) (hne : l ≠ [])
    (hw : ∀ w ∈ l, w ≠ [] ∧ ∀ c ∈ w, isSpaceChar c = false) :
    pyStrip (pyAcc l) = joinSp l := by
  unfold pyStrip
  rw [dropWhile_pyAcc l hne hw]
  rcases List.eq_nil_or_concat l with h | ⟨l', x, h⟩
  · exact absurd h hne
  · subst h
    rw [show l'.concat x = l' ++ [x] from List.concat_eq_append l' x] at hw ⊢
    obtain ⟨hxne, hxc⟩ := hw x (by simp)
    rw [dropTrail_pyAcc_concat l' x hxne hxc, joinSp_concat_eq_pyAcc]

/-! ## Streaming orchestrator lemmas -/

/-- Closed form of the word loop: a chunk is emitted exactly at the word
indices `j` with `j % 3 = 0` or `j = n - 1`, in increasing index order, with
the documented content, completion flag and progress. -/
theorem streamLoopAux_closed (n : ℕ) : ∀ (rest front : List PyStr),
    n = front.length + rest.length →
    streamLoopAux n rest front.length (pyAcc front)
      = ((List.range' front.length rest.length).filter
          (fun j => decide (j % 3 = 0) || decide (j = n - 1))).map
          (fun j => ({ content := pyStrip (pyAcc ((front ++ rest).take (j + 1))),
                       is_complete := decide (j = n - 1),
                       progress := ((j : ℚ) + 1) / (n : ℚ) } : Chunk)) := by
  intro rest
  induction rest with
  | nil =>
    intro front h
    simp [streamLoopAux]
  | cons w rest' ih =>
    intro front h
    have hn' : n = (front ++ [w]).length + rest'.length := by
      simp at h ⊢
      omega
    have hih := ih (front ++ [w]) hn'
    rw [List.length_append, List.length_singleton] at hih
    have hfw : front ++ w :: rest' = (front ++ [w]) ++ rest' := by simp
    have hstep : streamLoopAux n (w :: rest') front.length (pyAcc front)
        = (if front.length % 3 = 0 ∨ front.length = n - 1 then
             [({ content := pyStrip (pyAcc front ++ w ++ [' ']),
                 is_complete := decide (front.length = n - 1),
                 progress := ((front.length : ℚ) + 1) / (n : ℚ) } : Chunk)]
           else [])
          ++ streamLoopAux n rest' (front.length + 1) (pyAcc front ++ w ++ [' ']) := rfl
    rw [hstep, show pyAcc front ++ w ++ [' '] = pyAcc (front ++ [w])
      from (pyAcc_concat front w).symm, hih]
    have htake : ((front ++ [w]) ++ rest').take (front.length + 1) = front ++ [w] := by
      have hl : front.length + 1 = (front ++ [w]).length := by simp
      rw [hl, List.take_left]
    simp only [List.length_cons]
    rw [List.range'_succ, List.filter_cons]
    by_cases hp : front.length % 3 = 0 ∨ front.length = n - 1
    · have hpb : (decide (front.length % 3 = 0) || decide (front.length = n - 1)) = true := by
        rcases hp with h' | h' <;> simp [h']
      rw [if_pos hp, hpb]
      simp only [if_pos rfl, List.map_cons, List.singleton_append, if_true]
      rw [hfw, htake]
    · have hpb : (decide (front.length % 3 = 0) || decide (front.length = n - 1)) = false := by
        push_neg at hp
        simp [hp.1, hp.2]
      rw [if_neg hp, hpb]
      simp only [Bool.false_eq_true, if_false, List.nil_append]
      rw [hfw]

/-- The chunks sent for word list `ws`, in closed form. -/
theorem streamChunks_closed (ws : List PyStr) :
    streamChunks ws = (emitIdx ws.length).map (chunkAt ws) := by
  have h := streamLoopAux_closed ws.length ws [] (by simp)
  simp only [List.length_nil, List.nil_append] at h
  rw [show pyAcc [] = ([] : PyStr) from rfl] at h
  rw [streamChunks, h, emitIdx, List.range_eq_range']
  rfl

theorem mem_emitIdx (n j : ℕ) :
    j ∈ emitIdx n ↔ j < n ∧ (j % 3 = 0 ∨ j = n - 1) := by
  simp [emitIdx, List.mem_filter, List.mem_range]

theorem emitIdx_nodup (n : ℕ) : (emitIdx n).Nodup :=
  (List.nodup_range n).filter _

theorem emitIdx_concat (n : ℕ) (h : 1 ≤ n) :
    ∃ l', emitIdx n = l' ++ [n - 1] := by
  obtain ⟨m, rfl⟩ : ∃ m, n = m + 1 := ⟨n - 1, by omega⟩
  refine ⟨(List.range m).filter
    (fun j => decide (j % 3 = 0) || decide (j = m + 1 - 1)), ?_⟩
  rw [emitIdx, List.range_succ, List.filter_append]
  congr 1
  simp

/-- Chunk contents have non-decreasing lengths along word indices. -/
theorem chunkAt_content_mono (ws : List PyStr) (hne : ws ≠ [])
    (hw : ∀ w ∈ ws, w ≠ [] ∧ ∀ c ∈ w, isSpaceChar c = false)
    (i j : ℕ) (hij : i ≤ j) :
    (chunkAt ws i).content.length ≤ (chunkAt ws j).content.length := by
  have key : ∀ k : ℕ, (chunkAt ws k).content.length + 1
      = ((ws.take (k + 1)).map (fun w => w.length + 1)).sum := by
    intro k
    have htne : ws.take (k + 1) ≠ [] := by
      intro hcontra
      rcases List.take_eq_nil_iff.mp hcontra with h' | h'
      · exact absurd h' (by omega)
      · exact hne h'
    have hwt : ∀ w ∈ ws.take (k + 1), w ≠ [] ∧ ∀ c ∈ w, isSpaceChar c = false :=
      fun w hwm => hw w (List.take_subset _ _ hwm)
    unfold chunkAt
    dsimp only
    rw [pyStrip_pyAcc _ htne hwt, joinSp_length _ htne, pyAcc_length]
  have h1 := key i
  have h2 := key j
  have hsum : ((ws.take (i + 1)).map (fun w => w.length + 1)).sum
      ≤ ((ws.take (j + 1)).map (fun w => w.length + 1)).sum := by
    have hsub : ws.take (i + 1) = (ws.take (j + 1)).take (i + 1) := by
      rw [List.take_take, min_eq_left (by omega)]
    rw [hsub]
    conv_rhs => rw [← List.take_append_drop (i + 1) (ws.take (j + 1))]
    rw [List.map_append, List.sum_append]
    exact Nat.le_add_right _ _
  omega

/-- C4: for a provider text of at least one word, emitted chunk contents are
monotonically non-decreasing in length, the final chunk has
`is_complete = true`, and `progress = 1` occurs exactly once, at that final
chunk. -/
theorem C4_streaming_monotone_complete (text : PyStr)
    (hW : 1 ≤ (wordsOf text).length) :
    List.Pairwise (fun a b => a.content.length ≤ b.content.length)
      (streamChunks (wordsOf text)) ∧
    (∃ c, (streamChunks (wordsOf text)).getLast? = some c ∧
       c.is_complete = true ∧ c.progress = 1) ∧
    ((streamChunks (wordsOf text)).filter (fun c => decide (c.progress = 1))).length = 1 := by
  set ws := wordsOf text with hws
  have hwords : ∀ w ∈ ws, w ≠ [] ∧ ∀ c ∈ w, isSpaceChar c = false := splitWs_words _
  have hne : ws ≠ [] := by
    intro h
    rw [h] at hW
    simp at hW
  have hn0 : ws.length ≠ 0 := by
    intro h
    exact hne (List.length_eq_zero.mp h)
  rw [streamChunks_closed]
  refine ⟨?_, ?_, ?_⟩
  · rw [List.pairwise_map]
    have hpw : (emitIdx ws.length).Pairwise (· < ·) :=
      (List.pairwise_lt_range ws.length).sublist (List.filter_sublist _)
    exact hpw.imp (fun hij => chunkAt_content_mono ws hne hwords _ _ (le_of_lt hij))
  · obtain ⟨l', hl'⟩ := emitIdx_concat ws.length (by omega)
    rw [hl', List.map_append]
    refine ⟨chunkAt ws (ws.length - 1), ?_, ?_, ?_⟩
    · simp [List.getLast?_concat]
    · unfold chunkAt
      simp
    · unfold chunkAt
      dsimp only
      have hq : ((ws.length - 1 : ℕ) : ℚ) + 1 = (ws.length : ℚ) := by
        have h' : (ws.length - 1 : ℕ) + 1 = ws.length := by omega
        exact_mod_cast congrArg (fun k : ℕ => (k : ℚ)) h'
      rw [hq, div_self (by exact_mod_cast hn0)]
  · rw [List.filter_map, List.length_map]
    have hprog : ∀ j, j < ws.length →
        (((j : ℚ) + 1) / (ws.length : ℚ) = 1 ↔ j = ws.length - 1) := by
      intro j hj
      rw [div_eq_one_iff_eq (by exact_mod_cast hn0)]
      constructor
      · intro h'
        have : j + 1 = ws.length := by exact_mod_cast h'
        omega
      · intro h'
        have : j + 1 = ws.length := by omega
        exact_mod_cast congrArg (fun k : ℕ => (k : ℚ)) this
    have hcong : (emitIdx ws.length).filter ((fun c => decide (c.progress = 1)) ∘ chunkAt ws)
        = (emitIdx ws.length).filter (fun j => j == ws.length - 1) := by
      refine List.filter_congr ?_
      intro j hj
      have hjlt : j < ws.length := ((mem_emitIdx _ _).mp hj).1
      simp only [Function.comp_apply, chunkAt]
      by_cases hjm : j = ws.length - 1
      · subst hjm
        simp [(hprog _ hjlt).mpr rfl]
      · have hnp : ¬ (((j : ℚ) + 1) / (ws.length : ℚ) = 1) :=
          fun h' => hjm ((hprog _ hjlt).mp h')
        simp [hnp, hjm]
    rw [hcong, ← List.countP_eq_length_filter]
    have hcount : (emitIdx ws.length).countP (fun j => j == ws.length - 1)
        = (emitIdx ws.length).count (ws.length - 1) := rfl
    rw [hcount]
    exact List.count_eq_one_of_mem (emitIdx_nodup _)
      ((mem_emitIdx _ _).mpr ⟨by omega, Or.inr rfl⟩)

/-- Witness for C4: the four-word text "a b c d". -/
theorem C4_streaming_monotone_complete_witness :
    1 ≤ (wordsOf streamTextEx).length ∧
    (List.Pairwise (fun a b => a.content.length ≤ b.content.length)
      (streamChunks (wordsOf streamTextEx)) ∧
    (∃ c, (streamChunks (wordsOf streamTextEx)).getLast? = some c ∧
       c.is_complete = true ∧ c.progress = 1) ∧
    ((streamChunks (wordsOf streamTextEx)).filter
       (fun c => decide (c.progress = 1))).length = 1) :=
  ⟨by decide, C4_streaming_monotone_complete streamTextEx (by decide)⟩

/-- Counterexample for C5: on the four-word text "a b c d" the second (and
last) chunk is emitted after the 4th word with `progress = 4/4 = 1`, whereas
`chunks_sent / total_words` would be `2/4`: `progress` is the number of words
sent so far over the total, not the number of chunks sent. -/
theorem C5_progress_counterexample :
    ((streamChunks (wordsOf streamTextEx)).get ⟨1, by decide⟩).progress = 1 ∧
    ¬ (∀ k (hk : k < (streamChunks (wordsOf streamTextEx)).length),
        ((streamChunks (wordsOf streamTextEx)).get ⟨k, hk⟩).progress
          = ((k : ℚ) + 1) / ((wordsOf streamTextEx).length : ℚ)) := by
  have hn : (wordsOf streamTextEx).length = 4 := by decide
  have hget : ∀ hk, (streamChunks (wordsOf streamTextEx)).get ⟨1, hk⟩
      = chunkAt (wordsOf streamTextEx) 3 := by
    intro hk
    have hchunks : streamChunks (wordsOf streamTextEx)
        = (emitIdx 4).map (chunkAt (wordsOf streamTextEx)) := by
      rw [streamChunks_closed, hn]
    have hemit : emitIdx 4 = [0, 3] := by decide
    have hk' : 1 < ((emitIdx 4).map (chunkAt (wordsOf streamTextEx))).length := by
      rw [hemit]
      decide
    rw [List.get_of_eq hchunks ⟨1, hk⟩]
    rw [List.get_of_eq (by rw [hemit]) ⟨1, by simpa using hk'⟩]
    rfl
  have hprog : (chunkAt (wordsOf streamTextEx) 3).progress = 1 := by
    unfold chunkAt
    dsimp only
    rw [hn]
    norm_num
  constructor
  · rw [hget]
    exact hprog
  · intro h
    have h1 := h 1 (by decide)
    rw [hget, hprog, hn] at h1
    norm_num at h1

/-- C5 (amended): a chunk is sent exactly at word indices `i` with
`i % 3 = 0` or `i` the last index (so after the 1st word, every 3 words, and
at the end), and the `progress` attached to the chunk at word index `i` is
`(i + 1) / total_words` — the number of words emitted so far over the total
word count, not `chunks_sent / total_words`. -/
theorem C5_amended_word_progress (text : PyStr) :
    streamChunks (wordsOf text) = (emitIdx (wordsOf text).length).map (chunkAt (wordsOf text)) ∧
    (∀ i, i ∈ emitIdx (wordsOf text).length ↔
       i < (wordsOf text).length ∧ (i % 3 = 0 ∨ i = (wordsOf text).length - 1)) ∧
    (∀ i, (chunkAt (wordsOf text) i).progress
       = ((i : ℚ) + 1) / ((wordsOf text).length : ℚ)) :=
  ⟨streamChunks_closed _, fun i => mem_emitIdx _ i, fun _ => rfl⟩

/-! ## `strip` commutes with `split` -/

theorem splitWsAux_dropWhile (s : PyStr) :
    splitWsAux (s.dropWhile isSpaceChar) [] = splitWsAux s [] := by
  induction s with
  | nil => rfl
  | cons c rest ih =>
    by_cases hc : isSpaceChar c
    · have h1 : (c :: rest).dropWhile isSpaceChar = rest.dropWhile isSpaceChar := by
        rw [List.dropWhile_cons, hc]
        simp
      rw [h1, ih]
      have h2 : splitWsAux (c :: rest) [] = splitWsAux rest [] := by
        simp [splitWsAux, hc]
      exact h2.symm
    · have h1 : (c :: rest).dropWhile isSpaceChar = c :: rest := by
        rw [List.dropWhile_cons]
        simp [hc]
      rw [h1]

theorem splitWsAux_spaces (sp : PyStr) : ∀ acc,
    (∀ c ∈ sp, isSpaceChar c = true) → splitWsAux sp acc = splitWsAux [] acc := by
  induction sp with
  | nil => intro acc _; rfl
  | cons c sp' ih =>
    intro acc hsp
    have hc : isSpaceChar c = true := hsp c (by simp)
    unfold splitWsAux
    rw [if_pos hc]
    by_cases hae : acc.isEmpty
    · rw [if_pos hae, ih [] (fun d hd => hsp d (by simp [hd]))]
      simp [splitWsAux, hae]
    · rw [if_neg hae, ih [] (fun d hd => hsp d (by simp [hd]))]
      simp [splitWsAux, hae]

theorem splitWsAux_append_spaces (s : PyStr) : ∀ (sp acc : PyStr),
    (∀ c ∈ sp, isSpaceChar c = true) →
    splitWsAux (s ++ sp) acc = splitWsAux s acc := by
  induction s with
  | nil =>
    intro sp acc hsp
    rw [List.nil_append]
    exact splitWsAux_spaces sp acc hsp
  | cons c s' ih =>
    intro sp acc hsp
    rw [List.cons_append]
    show splitWsAux (c :: (s' ++ sp)) acc = splitWsAux (c :: s') acc
    unfold splitWsAux
    by_cases hc : isSpaceChar c
    · rw [if_pos hc, if_pos hc]
      by_cases hae : acc.isEmpty
      · rw [if_pos hae, if_pos hae, ih sp [] hsp]
      · rw [if_neg hae, if_neg hae, ih sp [] hsp]
    · rw [if_neg hc, if_neg hc]
      exact ih sp (c :: acc) hsp

theorem dropTrail_decomp (u : PyStr) :
    ∃ sp, (∀ c ∈ sp, isSpaceChar c = true) ∧ u = dropTrail u ++ sp := by
  refine ⟨(u.reverse.takeWhile isSpaceChar).reverse, ?_, ?_⟩
  · intro c hc
    exact List.mem_takeWhile_imp (List.mem_reverse.mp hc)
  · have h1 : u.reverse.takeWhile isSpaceChar ++ u.reverse.dropWhile isSpaceChar
        = u.reverse := List.takeWhile_append_dropWhile isSpaceChar u.reverse
    have h2 := congrArg List.reverse h1
    rw [List.reverse_append, List.reverse_reverse] at h2
    exact h2.symm

/-- Fact `text.strip().split() = text.split()`. -/
theorem splitWs_pyStrip (s : PyStr) : splitWs (pyStrip s) = splitWs s := by
  unfold pyStrip splitWs
  obtain ⟨sp, hsp, hdec⟩ := dropTrail_decomp (s.dropWhile isSpaceChar)
  have h1 : splitWsAux (dropTrail (s.dropWhile isSpaceChar)) [] =
      splitWsAux (dropTrail (s.dropWhile isSpaceChar) ++ sp) [] :=
    (splitWsAux_append_spaces _ sp [] hsp).symm
  rw [h1, ← hdec]
  exact splitWsAux_dropWhile s

/-- C10: for a provider text with at least one word, the value returned by
`stream_response` (and persisted as the assistant turn) is the single-space
join of the whitespace-split words of the provider's text, and equals the
content of the final emitted chunk; it can differ from the raw provider text
and from what the non-streaming path returns (`text.strip()`) when the text
contains a newline or a run of whitespace. -/
theorem C10_stream_result_normalized (text : PyStr)
    (hW : 1 ≤ (wordsOf text).length) :
    streamResultOf text = joinSp (splitWs text) ∧
    (∃ c, (streamChunks (wordsOf text)).getLast? = some c ∧
       c.content = streamResultOf text) ∧
    ('\n' ∈ nlTextEx ∧ streamResultOf nlTextEx ≠ pyStrip nlTextEx ∧
       streamResultOf nlTextEx ≠ nlTextEx) := by
  have hwords : ∀ w ∈ wordsOf text, w ≠ [] ∧ ∀ c ∈ w, isSpaceChar c = false :=
    splitWs_words _
  have hne : wordsOf text ≠ [] := by
    intro h
    rw [h] at hW
    simp at hW
  refine ⟨?_, ?_, by decide, by decide, by decide⟩
  · unfold streamResultOf
    rw [pyStrip_pyAcc _ hne hwords]
    unfold wordsOf
    rw [splitWs_pyStrip]
  · rw [streamChunks_closed]
    obtain ⟨l', hl'⟩ := emitIdx_concat (wordsOf text).length hW
    rw [hl', List.map_append]
    refine ⟨chunkAt (wordsOf text) ((wordsOf text).length - 1), ?_, ?_⟩
    · simp [List.getLast?_concat]
    · unfold chunkAt streamResultOf
      dsimp only
      have htk : (wordsOf text).take ((wordsOf text).length - 1 + 1) = wordsOf text := by
        have h' : (wordsOf text).length - 1 + 1 = (wordsOf text).length := by omega
        rw [h', List.take_length]
      rw [htk]

/-! ## Context builder lemmas -/

theorem joinNL_cons (a : PyStr) (L : List PyStr) : ∃ t, joinNL (a :: L) = a ++ t := by
  cases L with
  | nil => exact ⟨[], by simp [joinNL]⟩
  | cons q rest => exact ⟨'\n' :: joinNL (q :: rest), rfl⟩

theorem joinNL_concat (L : List PyStr) (b : PyStr) : ∃ s, joinNL (L ++ [b]) = s ++ b := by
  induction L with
  | nil => exact ⟨[], by simp [joinNL]⟩
  | cons a L' ih =>
    obtain ⟨s, hs⟩ := ih
    refine ⟨a ++ '\n' :: s, ?_⟩
    obtain ⟨x, xs, hx⟩ : ∃ x xs, L' ++ [b] = x :: xs := by
      cases L' <;> exact ⟨_, _, rfl⟩
    rw [List.cons_append, hx]
    show a ++ '\n' :: joinNL (x :: xs) = (a ++ '\n' :: s) ++ b
    rw [← hx, hs]
    simp

/-- Greedy characterisation of the truncation loop: it keeps a maximal
budget-respecting run of the most-recent turns and stops at the first
overflow. -/
theorem takeRecent_spec (maxLen : ℕ) : ∀ (l : List PyStr) (total : ℕ),
    ∃ k, k ≤ l.length ∧ takeRecent maxLen l total = l.take k ∧
      (∀ j, j < k →
        total + renderCost (l.take j) + ((l.getD j []).length + 10) ≤ maxLen) ∧
      (k < l.length →
        maxLen < total + renderCost (l.take k) + ((l.getD k []).length + 10)) := by
  intro l
  induction l with
  | nil =>
    intro total
    exact ⟨0, by simp, rfl, fun j hj => absurd hj (by omega), fun h => absurd h (by simp)⟩
  | cons t rest ih =>
    intro total
    by_cases hover : total + t.length + 10 > maxLen
    · refine ⟨0, by simp, ?_, ?_, ?_⟩
      · show takeRecent maxLen (t :: rest) total = []
        unfold takeRecent
        rw [if_pos hover]
      · intro j hj
        omega
      · intro _
        simp only [List.take_zero, renderCost, List.map_nil, List.sum_nil,
          List.getD_cons_zero]
        omega
    · push_neg at hover
      obtain ⟨k, hk, heq, hall, hbound⟩ := ih (total + t.length + 10)
      refine ⟨k + 1, by simp; omega, ?_, ?_, ?_⟩
      · show takeRecent maxLen (t :: rest) total = (t :: rest).take (k + 1)
        unfold takeRecent
        rw [if_neg (by omega), heq]
        rfl
      · intro j hj
        cases j with
        | zero =>
          simp only [List.take_zero, renderCost, List.map_nil, List.sum_nil,
            List.getD_cons_zero]
          omega
        | succ j' =>
          have := hall j' (by omega)
          simp only [List.take_succ_cons, List.getD_cons_succ, renderCost,
            List.map_cons, List.sum_cons] at this ⊢
          omega
      · intro hklen
        have hklen' : k < rest.length := by
          simp at hklen
          omega
        have := hbound hklen'
        simp only [List.take_succ_cons, List.getD_cons_succ, renderCost,
          List.map_cons, List.sum_cons] at this ⊢
        omega

/-- C6: the built context starts with the fixed system preamble, ends with
the `User:` rendering of the new message, and contains exactly the rendered
forms of a greedily chosen most-recent suffix of the history, in
chronological order: for some `k`, the last `k` turns are included, every
included turn fitted in the running budget, and if any turn was dropped then
the next-oldest turn would have overflowed `max_context_length`. -/
theorem C6_context_builder (messages : List ChatMessage) (current : PyStr)
    (maxLen : ℕ) (hne : current ≠ []) :
    (∃ t, build_context messages current maxLen = systemLine ++ t) ∧
    (∃ s, build_context messages current maxLen = s ++ userLine current) ∧
    (∃ k, k ≤ messages.length ∧
      build_context messages current maxLen
        = joinNL (systemLine ::
            ((messages.drop (messages.length - k)).map render ++ [userLine current])) ∧
      (∀ j, j < k →
        current.length + 50 + (systemPrompt.length + 10)
          + renderCost ((messages.reverse.map render).take j)
          + (((messages.reverse.map render).getD j []).length + 10) ≤ maxLen) ∧
      (k < messages.length →
        maxLen < current.length + 50 + (systemPrompt.length + 10)
          + renderCost ((messages.reverse.map render).take k)
          + (((messages.reverse.map render).getD k []).length + 10))) := by
  obtain ⟨k, hk, heq, hall, hbound⟩ := takeRecent_spec maxLen (messages.reverse.map render)
    (current.length + 50 + (systemPrompt.length + 10))
  have hklen : k ≤ messages.length := by simpa using hk
  have hrev : ((messages.reverse.map render).take k).reverse
      = (messages.drop (messages.length - k)).map render := by
    rw [List.map_reverse, List.take_reverse, List.reverse_reverse, List.length_map,
      ← List.map_drop]
  have hbc : build_context messages current maxLen
      = joinNL (systemLine ::
          ((messages.drop (messages.length - k)).map render ++ [userLine current])) := by
    unfold build_context
    dsimp only
    rw [heq, hrev]
  refine ⟨?_, ?_, k, hklen, hbc, hall, fun h => hbound (by simpa using h)⟩
  · rw [hbc]
    exact joinNL_cons _ _
  · rw [hbc, show systemLine ::
        ((messages.drop (messages.length - k)).map render ++ [userLine current])
      = (systemLine :: (messages.drop (messages.length - k)).map render)
        ++ [userLine current] from rfl]
    exact joinNL_concat _ _

/-- Witness for C6: one stored turn, message "new msg", budget 240 — the
budget admits the system preamble and new message but drops the turn. -/
theorem C6_context_builder_witness :
    ("new msg").toList ≠ [] ∧
    ((∃ t, build_context [{ message_type := ("user").toList, content := ("hi").toList }]
        (("new msg").toList) 240 = systemLine ++ t) ∧
    (∃ s, build_context [{ message_type := ("user").toList, content := ("hi").toList }]
        (("new msg").toList) 240 = s ++ userLine (("new msg").toList)) ∧
    (∃ k, k ≤ ([{ message_type := ("user").toList, content := ("hi").toList }] :
          List ChatMessage).length ∧
      build_context [{ message_type := ("user").toList, content := ("hi").toList }]
          (("new msg").toList) 240
        = joinNL (systemLine ::
            ((([{ message_type := ("user").toList, content := ("hi").toList }] :
                List ChatMessage).drop (1 - k)).map render
              ++ [userLine (("new msg").toList)])) ∧
      (∀ j, j < k →
        (("new msg").toList).length + 50 + (systemPrompt.length + 10)
          + renderCost ((([{ message_type := ("user").toList, content := ("hi").toList }] :
              List ChatMessage).reverse.map render).take j)
          + (((([{ message_type := ("user").toList, content := ("hi").toList }] :
              List ChatMessage).reverse.map render).getD j []).length + 10) ≤ 240) ∧
      (k < 1 →
        240 < (("new msg").toList).length + 50 + (systemPrompt.length + 10)
          + renderCost ((([{ message_type := ("user").toList, content := ("hi").toList }] :
              List ChatMessage).reverse.map render).take k)
          + (((([{ message_type := ("user").toList, content := ("hi").toList }] :
              List ChatMessage).reverse.map render).getD k []).length + 10)))) :=
  ⟨by decide, C6_context_builder
    [{ message_type := ("user").toList, content := ("hi").toList }]
    (("new msg").toList) 240 (by decide)⟩

/-- Witness for C10: the four-word text "a b c d". -/
theorem C10_stream_result_normalized_witness :
    1 ≤ (wordsOf streamTextEx).length ∧
    (streamResultOf streamTextEx = joinSp (splitWs streamTextEx) ∧
    (∃ c, (streamChunks (wordsOf streamTextEx)).getLast? = some c ∧
       c.content = streamResultOf streamTextEx) ∧
    ('\n' ∈ nlTextEx ∧ streamResultOf nlTextEx ≠ pyStrip nlTextEx ∧
       streamResultOf nlTextEx ≠ nlTextEx)) :=
  ⟨by decide, C10_stream_result_normalized streamTextEx (by decide)⟩

end GstGenie
